import Mathlib

/-!
Verification of the text layout engine (`text2d` module) of the repository.

The definitions below are shallow embeddings of the JavaScript functions in
the source file (`Renderer.prototype._lineate`, `_processLines`,
`_splitOnBreaks`, `_setTextSize`, `textLeading`, `_aggregateBounds`,
`_xAlignOffset`, `_rectModeAlign`, `_rectModeAlignRevert` and the x-alignment
step of `_computeBounds`).  JavaScript numbers are modelled as rationals,
the metrics provider (`_textWidthSingle`, backed by `measureText`) as an
abstract function `mw : String → ℚ`, and fallible calls as `Except`.
-/

namespace P5Text

/-- Wrap mode kept in `states.textWrap` (WORD or CHAR). -/
inductive WrapMode
  | WORD
  | CHAR
deriving DecidableEq

/-- Horizontal alignment values accepted by `_xAlignOffset`. -/
inductive TextAlign
  | LEFT
  | CENTER
  | RIGHT
  | START
  | END
deriving DecidableEq

/-- Rect-mode conventions used by `_rectModeAlign` / `_rectModeAlignRevert`. -/
inductive RectMode
  | CORNER
  | CORNERS
  | CENTER
  | RADIUS
deriving DecidableEq

/-- Fatal errors thrown by the layout code (`throw Error(...)` sites). -/
inductive LayoutErr
  | missingLeading
  | unsupportedAlignment
deriving DecidableEq

/-- Model of JavaScript `String.prototype.trim`: strip leading and trailing
whitespace characters. -/
def jsTrim (s : String) : String :=
  ⟨((s.data.dropWhile Char.isWhitespace).reverse.dropWhile Char.isWhitespace).reverse⟩

/-- Split a character list at each occurrence of the character `c`
(the behaviour of JavaScript `String.prototype.split` with a one-character
separator: adjacent separators produce empty pieces, and the empty input
produces one empty piece). -/
def splitChar (c : Char) : List Char → List (List Char)
  | [] => [[]]
  | a :: rest =>
    if a = c then [] :: splitChar c rest
    else
      match splitChar c rest with
      | [] => [[a]]
      | l :: ls => (a :: l) :: ls

/-- Model of JavaScript `String.prototype.split` with a string separator:
an empty separator splits into the list of single characters, a one-character
separator splits at each occurrence of it.  The engine only ever splits on
`' '` (WORD mode) or `''` (CHAR mode), so longer separators are left
unmodelled (the string is returned whole). -/
def jsSplit (s sep : String) : List String :=
  match sep.data with
  | [] => s.data.map (fun c => String.singleton c)
  | [c] => (splitChar c s.data).map (fun l => (⟨l⟩ : String))
  | _ :: _ :: _ => [s]

/-- Decidable equality for `Except`, used to evaluate the layout functions on
concrete inputs. -/
instance {ε α : Type} [DecidableEq ε] [DecidableEq α] : DecidableEq (Except ε α) :=
  fun x y =>
    match x, y with
    | .ok a, .ok b =>
      if h : a = b then .isTrue (by rw [h])
      else .isFalse (fun he => h (Except.ok.inj he))
    | .ok _, .error _ => .isFalse (fun he => Except.noConfusion he)
    | .error _, .ok _ => .isFalse (fun he => Except.noConfusion he)
    | .error e, .error f =>
      if h : e = f then .isTrue (by rw [h])
      else .isFalse (fun he => h (Except.error.inj he))

/-- Tab expansion performed by `_splitOnBreaks`: every tab becomes a
two-space run (`s.replace(TabsRe, '  ')`). -/
def tabExpandData (l : List Char) : List Char :=
  l.flatMap (fun c => if c = '\t' then [' ', ' '] else [c])

/-- Tab expansion as a map on strings. -/
def tabExpand (s : String) : String :=
  ⟨tabExpandData s.data⟩

/-- Split a character list at each line break, a break being `"\r\n"` or a
lone `"\n"` (the regex `/\r?\n/g` of `_splitOnBreaks`). -/
def splitLB : List Char → List (List Char)
  | [] => [[]]
  | '\r' :: '\n' :: rest => [] :: splitLB rest
  | '\n' :: rest => [] :: splitLB rest
  | c :: rest =>
    match splitLB rest with
    | [] => [[c]]
    | l :: ls => (c :: l) :: ls

/-- `Renderer.prototype._splitOnBreaks`: the empty string yields one empty
line, otherwise tabs are expanded and the string is split on line breaks. -/
def splitOnBreaks (s : String) : List String :=
  if s = "" then [""]
  else (splitLB (tabExpandData s.data)).map (fun l => (⟨l⟩ : String))

/-- The wrap delimiter used by `_lineate`: a space in WORD mode, the empty
string (per-character splitting) in CHAR mode. -/
def splitterOf : WrapMode → String
  | .WORD => " "
  | .CHAR => ""

/-- One iteration of the inner loop of `_lineate`: extend the running line
by the next token plus delimiter; if the running line is non-empty and the
candidate measures wider than `maxWidth`, commit the trimmed running line
and restart from the overflowing token. -/
def lineateStep (mw : String → ℚ) (splitter : String) (maxWidth : ℚ)
    (acc : List String × String) (word : String) : List String × String :=
  let testLine := acc.2 ++ word ++ splitter
  if 0 < acc.2.length ∧ maxWidth < mw testLine then
    (acc.1 ++ [jsTrim acc.2], word ++ splitter)
  else
    (acc.1, testLine)

/-- The body of `_lineate` for a single source line: fold over the tokens and
flush the final running line, trimmed. -/
def lineateLine (mw : String → ℚ) (splitter : String) (maxWidth : ℚ)
    (src : String) : List String :=
  let r := (jsSplit src splitter).foldl (lineateStep mw splitter maxWidth) ([], "")
  r.1 ++ [jsTrim r.2]

/-- `Renderer.prototype._lineate`: wrap each source line greedily against
`maxWidth`, accumulating all produced lines in order. -/
def lineate (mw : String → ℚ) (textWrap : WrapMode) (lines : List String)
    (maxWidth : ℚ) : List String :=
  (lines.map (lineateLine mw (splitterOf textWrap) maxWidth)).flatten

/-- The slice of `this.states` that `_processLines` reads: the wrap mode and
the (possibly absent) leading value. -/
structure TextStates where
  textWrap : WrapMode
  textLeading : Option ℚ
deriving DecidableEq

/-- The wrapping phase of `_processLines`: split on breaks, then invoke
`_lineate` when a width is given and the text has explicit breaks or some
line measures wider than the width. -/
def wrapLines (mw : String → ℚ) (st : TextStates) (str : String)
    (width : Option ℚ) : List String :=
  let lines := splitOnBreaks str
  match width with
  | none => lines
  | some w =>
    if 1 < lines.length ∨ ∃ l ∈ lines, w < mw l then
      lineate mw st.textWrap lines w
    else lines

/-- The height-truncation loop of `_processLines`: at the first 0-based index
`i` with `leading * (i+1) > height` the lines from `i` onward are dropped. -/
def truncateFrom (leading height : ℚ) : ℕ → List String → List String
  | _, [] => []
  | i, l :: rest =>
    if height < leading * (i + 1) then []
    else l :: truncateFrom leading height (i + 1) rest

/-- `Renderer.prototype._processLines`: wrap, then truncate against the
height.  The truncation block runs only when both a width and a height are
given, and throws when no leading value is available. -/
def processLines (mw : String → ℚ) (st : TextStates) (str : String)
    (width height : Option ℚ) : Except LayoutErr (List String) :=
  let lines := wrapLines mw st str width
  match width, height with
  | some _, some h =>
    match st.textLeading with
    | none => .error .missingLeading
    | some leading => .ok (truncateFrom leading h 0 lines)
  | _, _ => .ok lines

/-- A concrete metrics function assigning every character width one
(the advance width of a monospaced font of unit size). -/
def lenQ (s : String) : ℚ := s.length

/-- A degenerate metrics function measuring every string, the empty string
included, at width five.  It is monotone under appending on either side. -/
def constFive (_ : String) : ℚ := 5

/-- Greedy wrapping of one source line as the specification words it:
accumulate a candidate by appending the next token plus delimiter; if the
running line is non-empty and the candidate measures wider than the width
constraint, commit the running line trimmed and start a new one from the
overflowing token; flush the final running line trimmed.  This definition
follows the specification text and is compared against `lineate`. -/
def greedyWrapLine (mw : String → ℚ) (delim : String) (maxWidth : ℚ) :
    String → List String → List String
  | run, [] => [jsTrim run]
  | run, tok :: toks =>
    if run ≠ "" ∧ maxWidth < mw (run ++ tok ++ delim) then
      jsTrim run :: greedyWrapLine mw delim maxWidth (tok ++ delim) toks
    else
      greedyWrapLine mw delim maxWidth (run ++ tok ++ delim) toks

/-- Greedy wrapping of a list of source lines per the specification text. -/
def greedyWrap (mw : String → ℚ) (textWrap : WrapMode) (lines : List String)
    (maxWidth : ℚ) : List String :=
  (lines.map (fun src =>
    greedyWrapLine mw (splitterOf textWrap) maxWidth ""
      (jsSplit src (splitterOf textWrap)))).flatten

/-- The slice of `this.states` read and written by `_setTextSize` and the
`textLeading` setter: size, leading, and the explicit-leading latch. -/
structure TypoState where
  textSize : ℚ
  textLeading : ℚ
  leadingSet : Bool
deriving DecidableEq

/-- The constant `LeadingScale = 1.275` of the source. -/
def LeadingScale : ℚ := 51 / 40

/-- `Renderer.prototype._setTextSize` (numeric path): update the size when it
changed, and recompute the leading as `size * 1.275` unless the leading was
explicitly set.  Both `textSize(n)` and `textFont(font, n)` funnel through
this function. -/
def setTextSize (st : TypoState) (theSize : ℚ) : TypoState :=
  if st.textSize ≠ theSize then
    { textSize := theSize
      textLeading := if st.leadingSet then st.textLeading else theSize * LeadingScale
      leadingSet := st.leadingSet }
  else st

/-- The setter branch of `Renderer.prototype.textLeading`: record the value
and flip the `leadingSet` latch. -/
def setTextLeading (st : TypoState) (leading : ℚ) : TypoState :=
  { st with leadingSet := true, textLeading := leading }

/-- An axis-aligned bounding box `{x, y, w, h}`. -/
structure BBox where
  x : ℚ
  y : ℚ
  w : ℚ
  h : ℚ
deriving DecidableEq

/-- `Math.min` over a list (the source only applies it to non-empty lists;
the empty case, `Infinity` in JavaScript, is given an arbitrary value). -/
def listMin : List ℚ → ℚ
  | [] => 0
  | [a] => a
  | a :: rest => min a (listMin rest)

/-- `Math.max` over a list (the source only applies it to non-empty lists;
the empty case, `-Infinity` in JavaScript, is given an arbitrary value). -/
def listMax : List ℚ → ℚ
  | [] => 0
  | [a] => a
  | a :: rest => max a (listMax rest)

/-- `Renderer.prototype._aggregateBounds`: min/max the four edges of the
per-line boxes and return the union box. -/
def aggregateBounds (bboxes : List BBox) : BBox :=
  let minX := listMin (bboxes.map (fun b => b.x))
  let minY := listMin (bboxes.map (fun b => b.y))
  let maxY := listMax (bboxes.map (fun b => b.y + b.h))
  let maxX := listMax (bboxes.map (fun b => b.x + b.w))
  { x := minX, y := minY, w := maxX - minX, h := maxY - minY }

/-- `Renderer.prototype._xAlignOffset`: the horizontal offset for a given
alignment and width; END throws. -/
def xAlignOffset : TextAlign → ℚ → Except LayoutErr ℚ
  | .LEFT, _ => .ok 0
  | .CENTER, width => .ok (width / 2)
  | .RIGHT, width => .ok width
  | .START, _ => .ok 0
  | .END, _ => .error .unsupportedAlignment

/-- The horizontal-alignment step of `_computeBounds`: when more than one
line exists, shift every per-line box by the x-alignment offset; with a
single line the boxes are left untouched (and no offset is computed). -/
def alignBoxes (textAlign : TextAlign) (width : ℚ) (boxes : List BBox) :
    Except LayoutErr (List BBox) :=
  if 1 < boxes.length then
    match xAlignOffset textAlign width with
    | .error e => .error e
    | .ok off => .ok (boxes.map (fun b => { b with x := b.x + off }))
  else .ok boxes

/-- `Renderer.prototype._rectModeAlign` (defined-width path): re-anchor the
aggregated box according to the rect mode.  The RADIUS case shifts x/y
before halving w/h, exactly as the statements execute in order. -/
def rectModeAlign (rectMode : RectMode) (bb : BBox) (width height : ℚ) : BBox :=
  match rectMode with
  | .CENTER =>
    { bb with x := bb.x - (width - bb.w) / 2, y := bb.y - (height - bb.h) / 2 }
  | .CORNERS => { bb with w := bb.w + bb.x, h := bb.h + bb.y }
  | .RADIUS =>
    { x := bb.x - (width - bb.w) / 2, y := bb.y - (height - bb.h) / 2,
      w := bb.w / 2, h := bb.h / 2 }
  | .CORNER => bb

/-- `Renderer.prototype._rectModeAlignRevert` (defined-width path): the
intended inverse adjustment.  The RADIUS case shifts x/y using the halved
w/h before doubling them, exactly as the statements execute in order. -/
def rectModeAlignRevert (rectMode : RectMode) (bb : BBox) (width height : ℚ) :
    BBox :=
  match rectMode with
  | .CENTER =>
    { bb with x := bb.x + (width - bb.w) / 2, y := bb.y + (height - bb.h) / 2 }
  | .CORNERS => { bb with w := bb.w - bb.x, h := bb.h - bb.y }
  | .RADIUS =>
    { x := bb.x + (width - bb.w) / 2, y := bb.y + (height - bb.h) / 2,
      w := bb.w * 2, h := bb.h * 2 }
  | .CORNER => bb

/-! Helper lemmas shared by several of the claim theorems. -/

theorem str_data_append (a b : String) : (a ++ b).data = a.data ++ b.data := by
  cases a
  cases b
  rfl

theorem str_mk_eq_iff (l m : List Char) : (⟨l⟩ : String) = ⟨m⟩ ↔ l = m := by
  constructor
  · intro h
    cases h
    rfl
  · intro h
    rw [h]

theorem str_ne_empty_iff (s : String) : s ≠ "" ↔ s.data ≠ [] := by
  constructor
  · intro h hd
    exact h (String.ext (by rw [hd]))
  · intro h hs
    apply h
    rw [hs]

theorem str_length_pos_iff (s : String) : 0 < s.length ↔ s ≠ "" := by
  rw [str_ne_empty_iff]
  show 0 < s.data.length ↔ s.data ≠ []
  exact List.length_pos

theorem setTextSize_of_leadingSet (st : TypoState) (sz : ℚ)
    (h : st.leadingSet = true) :
    (setTextSize st sz).textLeading = st.textLeading ∧
      (setTextSize st sz).leadingSet = true := by
  by_cases hc : st.textSize = sz
  · simp [setTextSize, hc, h]
  · simp [setTextSize, hc, h]

theorem foldl_setTextSize_of_leadingSet (l : ℚ) :
    ∀ (szs : List ℚ) (st : TypoState),
      st.textLeading = l → st.leadingSet = true →
      (szs.foldl setTextSize st).textLeading = l ∧
        (szs.foldl setTextSize st).leadingSet = true := by
  intro szs
  induction szs with
  | nil => exact fun st hl hs => ⟨hl, hs⟩
  | cons sz rest ih =>
    intro st hl hs
    have hstep := setTextSize_of_leadingSet st sz hs
    exact ih (setTextSize st sz) (hstep.1.trans hl) hstep.2

/-- C4: the leading value is a one-way latch.  Before `textLeading` is set
explicitly, a size change recomputes the leading as `size * 1.275`; once
`textLeading` has been set explicitly, no later sequence of size changes
(`textSize` and the size path of `textFont` both go through `_setTextSize`)
alters the stored leading, and the latch stays set. -/
theorem claim_C4_leading_latch :
    (∀ (st : TypoState) (sz : ℚ), st.leadingSet = false → sz ≠ st.textSize →
      (setTextSize st sz).textLeading = sz * LeadingScale) ∧
    (∀ (st : TypoState) (l : ℚ) (szs : List ℚ),
      (szs.foldl setTextSize (setTextLeading st l)).textLeading = l ∧
        (szs.foldl setTextSize (setTextLeading st l)).leadingSet = true) := by
  constructor
  · intro st sz hset hne
    simp [setTextSize, Ne.symm hne, hset]
  · intro st l szs
    exact foldl_setTextSize_of_leadingSet l szs (setTextLeading st l) rfl rfl

/-- Witness for C4 at concrete inputs: an unlatched state recomputes the
leading on a size change, and a latched state keeps its leading across two
further size changes. -/
theorem claim_C4_witness :
    ((⟨12, 15, false⟩ : TypoState).leadingSet = false ∧ (20 : ℚ) ≠ 12 ∧
      (setTextSize ⟨12, 15, false⟩ 20).textLeading = 20 * LeadingScale) ∧
    ((List.foldl setTextSize (setTextLeading ⟨12, 15, false⟩ 7) [20, 30]).textLeading = 7 ∧
      (List.foldl setTextSize (setTextLeading ⟨12, 15, false⟩ 7) [20, 30]).leadingSet = true) :=
  ⟨⟨rfl, by norm_num,
      claim_C4_leading_latch.1 ⟨12, 15, false⟩ 20 rfl (by norm_num)⟩,
    claim_C4_leading_latch.2 ⟨12, 15, false⟩ 7 [20, 30]⟩

/-- C5: for a non-empty list of per-line boxes, the aggregated box is the
geometric union: its x/y are the minima of the per-line x/y, and its right
and bottom edges are the maxima of the per-line right and bottom edges. -/
theorem claim_C5_aggregate_union (b : BBox) (bs : List BBox) :
    (aggregateBounds (b :: bs)).x = listMin ((b :: bs).map (fun bb => bb.x)) ∧
    (aggregateBounds (b :: bs)).y = listMin ((b :: bs).map (fun bb => bb.y)) ∧
    (aggregateBounds (b :: bs)).x + (aggregateBounds (b :: bs)).w
        = listMax ((b :: bs).map (fun bb => bb.x + bb.w)) ∧
    (aggregateBounds (b :: bs)).y + (aggregateBounds (b :: bs)).h
        = listMax ((b :: bs).map (fun bb => bb.y + bb.h)) := by
  have hx : (aggregateBounds (b :: bs)).x
      = listMin ((b :: bs).map (fun bb => bb.x)) := rfl
  have hy : (aggregateBounds (b :: bs)).y
      = listMin ((b :: bs).map (fun bb => bb.y)) := rfl
  have hw : (aggregateBounds (b :: bs)).w
      = listMax ((b :: bs).map (fun bb => bb.x + bb.w))
        - listMin ((b :: bs).map (fun bb => bb.x)) := rfl
  have hh : (aggregateBounds (b :: bs)).h
      = listMax ((b :: bs).map (fun bb => bb.y + bb.h))
        - listMin ((b :: bs).map (fun bb => bb.y)) := rfl
  refine ⟨hx, hy, ?_, ?_⟩
  · rw [hx, hw]
    ring
  · rw [hy, hh]
    ring

/-- C6: the horizontal alignment offsets are 0 for LEFT and START, width/2
for CENTER, width for RIGHT, and END fails with the unsupported-alignment
error; the offset is applied to the per-line boxes only when more than one
line exists, so a CENTER-aligned 2-line block shifts each line by width/2
while a single line is left untouched for every alignment. -/
theorem claim_C6_align_offsets :
    (∀ w : ℚ, xAlignOffset .LEFT w = .ok 0) ∧
    (∀ w : ℚ, xAlignOffset .START w = .ok 0) ∧
    (∀ w : ℚ, xAlignOffset .CENTER w = .ok (w / 2)) ∧
    (∀ w : ℚ, xAlignOffset .RIGHT w = .ok w) ∧
    (∀ w : ℚ, xAlignOffset .END w = .error .unsupportedAlignment) ∧
    (∀ (w : ℚ) (b1 b2 : BBox),
      alignBoxes .CENTER w [b1, b2] =
        .ok [{ b1 with x := b1.x + w / 2 }, { b2 with x := b2.x + w / 2 }]) ∧
    (∀ (w : ℚ) (b : BBox) (a : TextAlign), alignBoxes a w [b] = .ok [b]) := by
  refine ⟨fun w => rfl, fun w => rfl, fun w => rfl, fun w => rfl, fun w => rfl,
    ?_, ?_⟩
  · intro w b1 b2
    simp [alignBoxes, xAlignOffset]
  · intro w b a
    simp [alignBoxes]

/-- Counterexample for C10: in RADIUS rect mode the revert adjustment is not
a left inverse of the align adjustment — starting from the box
`{x := 0, y := 0, w := 4, h := 4}` with width and height 10, an
align/revert round trip lands on `{x := 1, y := 1, w := 4, h := 4}`. -/
theorem claim_C10_counterexample :
    rectModeAlignRevert .RADIUS
        (rectModeAlign .RADIUS ⟨0, 0, 4, 4⟩ 10 10) 10 10 = ⟨1, 1, 4, 4⟩ ∧
    (⟨1, 1, 4, 4⟩ : BBox) ≠ ⟨0, 0, 4, 4⟩ := by
  constructor
  · simp only [rectModeAlign, rectModeAlignRevert, BBox.mk.injEq]
    norm_num
  · intro hEq
    have : (1 : ℚ) = 0 := congrArg BBox.x hEq
    norm_num at this

/-- C10 as amended: the revert adjustment is a left inverse of the align
adjustment for the CORNER, CORNERS and CENTER rect modes; in RADIUS mode the
round trip restores w and h but offsets x by w/4 and y by h/4. -/
theorem claim_C10_rect_mode_inverse (bb : BBox) (w h : ℚ) :
    rectModeAlignRevert .CORNER (rectModeAlign .CORNER bb w h) w h = bb ∧
    rectModeAlignRevert .CORNERS (rectModeAlign .CORNERS bb w h) w h = bb ∧
    rectModeAlignRevert .CENTER (rectModeAlign .CENTER bb w h) w h = bb ∧
    rectModeAlignRevert .RADIUS (rectModeAlign .RADIUS bb w h) w h =
      ⟨bb.x + bb.w / 4, bb.y + bb.h / 4, bb.w, bb.h⟩ := by
  cases bb
  refine ⟨rfl, ?_, ?_, ?_⟩ <;>
    · simp only [rectModeAlign, rectModeAlignRevert, BBox.mk.injEq]
      refine ⟨by ring_nf, by ring_nf, by ring_nf, by ring_nf⟩

/-- Counterexample for C2: a height constraint without a width constraint
does not require a leading value — the truncation block of `_processLines`
runs only when a width is also given, so the call succeeds instead of
failing with the missing-leading error. -/
theorem claim_C2_counterexample :
    processLines lenQ ⟨.WORD, none⟩ "x" none (some 5) = .ok ["x"] ∧
    (Except.ok ["x"] : Except LayoutErr (List String)) ≠ .error .missingLeading := by
  constructor
  · decide
  · intro hEq
    exact Except.noConfusion hEq

theorem splitLB_ne_nil (l : List Char) : splitLB l ≠ [] := by
  induction l using splitLB.induct with
  | case1 => simp [splitLB]
  | case2 rest ih => simp [splitLB]
  | case3 rest ih => simp [splitLB]
  | case4 c rest h1 h2 heq => simp [splitLB, heq]
  | case5 c rest h1 h2 l2 ls2 heq ih => simp [splitLB, heq]

theorem splitLB_no_newline (l : List Char) (h : '\n' ∉ l) : splitLB l = [l] := by
  induction l using splitLB.induct with
  | case1 => rfl
  | case2 rest ih => simp at h
  | case3 rest ih => simp at h
  | case4 c rest h1 h2 heq ih =>
    have hc : '\n' ∉ rest := fun hm => h (List.mem_cons_of_mem c hm)
    rw [ih hc] at heq
    cases heq
  | case5 c rest h1 h2 l2 ls2 heq ih =>
    have hc : '\n' ∉ rest := fun hm => h (List.mem_cons_of_mem c hm)
    have hrw := ih hc
    rw [hrw] at heq
    injection heq with e1 e2
    subst e1
    subst e2
    simp [splitLB, hrw]

theorem splitOnBreaks_ne_nil (s : String) : splitOnBreaks s ≠ [] := by
  unfold splitOnBreaks
  by_cases hs : s = ""
  · simp [hs]
  · simp only [if_neg hs, ne_eq, List.map_eq_nil_iff]
    exact splitLB_ne_nil _

theorem lineateLine_ne_nil (mw : String → ℚ) (splitter : String) (maxWidth : ℚ)
    (src : String) : lineateLine mw splitter maxWidth src ≠ [] := by
  simp [lineateLine]

theorem lineate_ne_nil (mw : String → ℚ) (wrap : WrapMode) (lines : List String)
    (maxWidth : ℚ) (hne : lines ≠ []) : lineate mw wrap lines maxWidth ≠ [] := by
  obtain ⟨a, rest, rfl⟩ := List.exists_cons_of_ne_nil hne
  simp only [lineate, List.map_cons, List.flatten_cons, ne_eq, List.append_eq_nil]
  intro hboth
  exact lineateLine_ne_nil mw (splitterOf wrap) maxWidth a hboth.1

theorem wrapLines_some (mw : String → ℚ) (st : TextStates) (str : String) (w : ℚ) :
    wrapLines mw st str (some w) =
      if 1 < (splitOnBreaks str).length ∨ ∃ l ∈ splitOnBreaks str, w < mw l then
        lineate mw st.textWrap (splitOnBreaks str) w
      else splitOnBreaks str := rfl

theorem wrapLines_ne_nil (mw : String → ℚ) (st : TextStates) (str : String)
    (width : Option ℚ) : wrapLines mw st str width ≠ [] := by
  cases width with
  | none => exact splitOnBreaks_ne_nil str
  | some w =>
    rw [wrapLines_some]
    by_cases hc : 1 < (splitOnBreaks str).length ∨ ∃ l ∈ splitOnBreaks str, w < mw l
    · rw [if_pos hc]
      exact lineate_ne_nil mw st.textWrap _ w (splitOnBreaks_ne_nil str)
    · rw [if_neg hc]
      exact splitOnBreaks_ne_nil str

theorem processLines_none_height (mw : String → ℚ) (st : TextStates) (str : String)
    (width : Option ℚ) :
    processLines mw st str width none = .ok (wrapLines mw st str width) := by
  cases width <;> rfl

theorem processLines_some_some (mw : String → ℚ) (wrap : WrapMode) (leading : ℚ)
    (str : String) (w h : ℚ) :
    processLines mw ⟨wrap, some leading⟩ str (some w) (some h) =
      .ok (truncateFrom leading h 0 (wrapLines mw ⟨wrap, some leading⟩ str (some w))) :=
  rfl

theorem truncateFrom_isPrefix (leading height : ℚ) :
    ∀ (ls : List String) (i : ℕ), truncateFrom leading height i ls <+: ls := by
  intro ls
  induction ls with
  | nil => intro i; simp [truncateFrom]
  | cons a rest ih =>
    intro i
    simp only [truncateFrom]
    by_cases hc : height < leading * (i + 1)
    · rw [if_pos hc]
      exact List.nil_prefix
    · rw [if_neg hc]
      obtain ⟨r, hr⟩ := ih (i + 1)
      exact ⟨r, by rw [List.cons_append, hr]⟩

theorem truncateFrom_length_iff (leading height : ℚ) (hl : 0 ≤ leading) :
    ∀ (ls : List String) (i k : ℕ),
      (k < (truncateFrom leading height i ls).length ↔
        (k < ls.length ∧ leading * ((i : ℚ) + k + 1) ≤ height)) := by
  intro ls
  induction ls with
  | nil =>
    intro i k
    simp [truncateFrom]
  | cons a rest ih =>
    intro i k
    simp only [truncateFrom]
    by_cases hc : height < leading * ((i : ℕ) + (1 : ℚ))
    · rw [if_pos hc]
      simp only [List.length_nil]
      constructor
      · intro hk
        exact absurd hk (Nat.not_lt_zero k)
      · rintro ⟨hk, hle⟩
        exfalso
        have hknn : (0 : ℚ) ≤ (k : ℚ) := Nat.cast_nonneg k
        have hmono : leading * ((i : ℚ) + 1) ≤ leading * ((i : ℚ) + k + 1) :=
          mul_le_mul_of_nonneg_left (by linarith) hl
        linarith
    · rw [if_neg hc]
      have hle1 : leading * ((i : ℚ) + 1) ≤ height := not_lt.mp hc
      cases k with
      | zero =>
        simp only [List.length_cons, Nat.cast_zero]
        constructor
        · intro _
          refine ⟨Nat.succ_pos _, ?_⟩
          have : leading * ((i : ℚ) + 0 + 1) = leading * ((i : ℚ) + 1) := by ring
          rw [this]
          exact hle1
        · intro _
          exact Nat.succ_pos _
      | succ k2 =>
        have hstep := ih (i + 1) k2
        simp only [List.length_cons, Nat.add_lt_add_iff_right]
        rw [hstep]
        have harith : leading * (((i + 1 : ℕ) : ℚ) + (k2 : ℚ) + 1)
            = leading * ((i : ℚ) + ((k2 + 1 : ℕ) : ℚ) + 1) := by
          push_cast
          ring
        rw [harith]

/-- C2 as amended: when a width and a height constraint are both given, a
missing leading value makes `_processLines` fail with the missing-leading
error; with a nonnegative leading L present, the output is a prefix of the
wrapped lines that keeps exactly the lines at 0-based index i with
`L * (i+1) ≤ height` (whole lines only — the first overflowing line and all
subsequent ones are dropped).  With a height but no width, neither the error
nor the truncation occurs. -/
theorem claim_C2_missing_leading_and_truncation (mw : String → ℚ)
    (wrap : WrapMode) (str : String) (w h : ℚ) :
    processLines mw ⟨wrap, none⟩ str (some w) (some h) = .error .missingLeading ∧
    (∀ leading : ℚ, 0 ≤ leading → ∀ L,
      processLines mw ⟨wrap, some leading⟩ str (some w) (some h) = .ok L →
        L <+: wrapLines mw ⟨wrap, some leading⟩ str (some w) ∧
        (∀ i : ℕ, i < L.length ↔
          (i < (wrapLines mw ⟨wrap, some leading⟩ str (some w)).length ∧
            leading * ((i : ℚ) + 1) ≤ h))) := by
  refine ⟨rfl, ?_⟩
  intro leading hl L hok
  rw [processLines_some_some] at hok
  have hL := Except.ok.inj hok
  subst hL
  refine ⟨truncateFrom_isPrefix leading h _ 0, ?_⟩
  intro i
  have hiff := truncateFrom_length_iff leading h hl
    (wrapLines mw ⟨wrap, some leading⟩ str (some w)) 0 i
  rw [hiff]
  have harith : leading * (((0 : ℕ) : ℚ) + (i : ℚ) + 1) = leading * ((i : ℚ) + 1) := by
    push_cast
    ring
  rw [harith]

/-- Witness for C2 at concrete inputs: "a\nb\nc" wrapped at width 100 gives
three lines, and a leading of 10 against a height of 25 keeps exactly the
first two. -/
theorem claim_C2_witness :
    (0 : ℚ) ≤ 10 ∧
    processLines lenQ ⟨.WORD, some 10⟩ "a\nb\nc" (some 100) (some 25) = .ok ["a", "b"] ∧
    (["a", "b"] <+: wrapLines lenQ ⟨.WORD, some 10⟩ "a\nb\nc" (some 100)) ∧
    (2 < (["a", "b"] : List String).length ↔
      (2 < (wrapLines lenQ ⟨.WORD, some 10⟩ "a\nb\nc" (some 100)).length ∧
        (10 : ℚ) * (((2 : ℕ) : ℚ) + 1) ≤ 25)) := by
  have hwrap : wrapLines lenQ ⟨.WORD, some 10⟩ "a\nb\nc" (some 100) = ["a", "b", "c"] := by
    decide
  have hok : processLines lenQ ⟨.WORD, some 10⟩ "a\nb\nc" (some 100) (some 25)
      = .ok ["a", "b"] := by
    rw [processLines_some_some, hwrap]
    norm_num [truncateFrom]
  have hmain := (claim_C2_missing_leading_and_truncation lenQ .WORD "a\nb\nc" 100 25).2
    10 (by norm_num) ["a", "b"] hok
  exact ⟨by norm_num, hok, hmain.1, hmain.2 2⟩

theorem truncateFrom_height_mono (leading h1 h2 : ℚ) (hh : h1 ≤ h2) :
    ∀ (ls : List String) (i : ℕ),
      truncateFrom leading h1 i ls <+: truncateFrom leading h2 i ls := by
  intro ls
  induction ls with
  | nil => intro i; simp [truncateFrom]
  | cons a rest ih =>
    intro i
    simp only [truncateFrom]
    by_cases hc1 : h1 < leading * (i + 1)
    · rw [if_pos hc1]
      exact List.nil_prefix
    · rw [if_neg hc1, if_neg (fun hc2 => hc1 (lt_of_le_of_lt hh hc2))]
      obtain ⟨r, hr⟩ := ih (i + 1)
      exact ⟨r, by rw [List.cons_append, hr]⟩

/-- C9: height truncation is monotone in the height — for a fixed string,
width and leading, the lines produced at a smaller height are a prefix of
the lines produced at a larger height. -/
theorem claim_C9_height_mono (mw : String → ℚ) (wrap : WrapMode) (leading : ℚ)
    (str : String) (w h1 h2 : ℚ) (hh : h1 ≤ h2) :
    ∀ L1 L2,
      processLines mw ⟨wrap, some leading⟩ str (some w) (some h1) = .ok L1 →
      processLines mw ⟨wrap, some leading⟩ str (some w) (some h2) = .ok L2 →
      L1 <+: L2 := by
  intro L1 L2 hok1 hok2
  rw [processLines_some_some] at hok1 hok2
  have e1 := Except.ok.inj hok1
  have e2 := Except.ok.inj hok2
  subst e1
  subst e2
  exact truncateFrom_height_mono leading h1 h2 hh _ 0

/-- Witness for C9 at concrete inputs: heights 15 and 25 with leading 10 keep
one and two lines respectively, and the former is a prefix of the latter. -/
theorem claim_C9_witness :
    (15 : ℚ) ≤ 25 ∧
    processLines lenQ ⟨.WORD, some 10⟩ "a\nb\nc" (some 100) (some 15) = .ok ["a"] ∧
    processLines lenQ ⟨.WORD, some 10⟩ "a\nb\nc" (some 100) (some 25) = .ok ["a", "b"] ∧
    (["a"] <+: (["a", "b"] : List String)) := by
  have hwrap : wrapLines lenQ ⟨.WORD, some 10⟩ "a\nb\nc" (some 100) = ["a", "b", "c"] := by
    decide
  have hok1 : processLines lenQ ⟨.WORD, some 10⟩ "a\nb\nc" (some 100) (some 15)
      = .ok ["a"] := by
    rw [processLines_some_some, hwrap]
    norm_num [truncateFrom]
  have hok2 : processLines lenQ ⟨.WORD, some 10⟩ "a\nb\nc" (some 100) (some 25)
      = .ok ["a", "b"] := by
    rw [processLines_some_some, hwrap]
    norm_num [truncateFrom]
  exact ⟨by norm_num, hok1, hok2,
    claim_C9_height_mono lenQ .WORD 10 "a\nb\nc" 100 15 25 (by norm_num)
      ["a"] ["a", "b"] hok1 hok2⟩

theorem lineate_empty_line (mw : String → ℚ) (wrap : WrapMode) (w : ℚ) :
    lineate mw wrap [""] w = [""] := by
  cases wrap <;> rfl

/-- Counterexample for C3: with width 10, height 5 and leading 10 the empty
input is truncated away entirely — `_processLines` returns an empty list of
lines, not a non-empty one. -/
theorem claim_C3_counterexample :
    processLines lenQ ⟨.WORD, some 10⟩ "" (some 10) (some 5) = .ok ([] : List String) := by
  have hwrap : wrapLines lenQ ⟨.WORD, some 10⟩ "" (some 10) = [""] := by decide
  rw [processLines_some_some, hwrap]
  norm_num [truncateFrom]

/-- C3 as amended: the produced line sequence is non-empty whenever the
height-truncation step cannot run (no height constraint, for any width) and
whenever it runs but the leading fits within the height; the empty input
string yields exactly one empty line whenever no height constraint is given.
(The original claim fails when truncation drops every line, see the
counterexample.) -/
theorem claim_C3_nonempty :
    (∀ (mw : String → ℚ) (st : TextStates) (str : String) (w : Option ℚ)
      (L : List String), processLines mw st str w none = .ok L → L ≠ []) ∧
    (∀ (mw : String → ℚ) (wrap : WrapMode) (leading : ℚ) (str : String) (w h : ℚ),
      leading ≤ h → ∀ L,
      processLines mw ⟨wrap, some leading⟩ str (some w) (some h) = .ok L → L ≠ []) ∧
    (∀ (mw : String → ℚ) (st : TextStates) (w : Option ℚ),
      processLines mw st "" w none = .ok [""]) := by
  refine ⟨?_, ?_, ?_⟩
  · intro mw st str w L hok
    rw [processLines_none_height] at hok
    have hL := Except.ok.inj hok
    subst hL
    exact wrapLines_ne_nil mw st str w
  · intro mw wrap leading str w h hlh L hok
    rw [processLines_some_some] at hok
    have hL := Except.ok.inj hok
    subst hL
    obtain ⟨a, rest, hcons⟩ := List.exists_cons_of_ne_nil
      (wrapLines_ne_nil mw ⟨wrap, some leading⟩ str (some w))
    rw [hcons]
    simp only [truncateFrom]
    have hno : ¬ h < leading * ((0 : ℕ) + (1 : ℚ)) := by
      have : leading * (((0 : ℕ) : ℚ) + 1) = leading := by
        push_cast
        ring
      rw [this]
      exact not_lt.mpr hlh
    rw [if_neg hno]
    simp
  · intro mw st w
    rw [processLines_none_height]
    suffices hwl : wrapLines mw st "" w = [""] by rw [hwl]
    cases w with
    | none => rfl
    | some w' =>
      rw [wrapLines_some]
      by_cases hc : 1 < (splitOnBreaks "").length ∨ ∃ l ∈ splitOnBreaks "", w' < mw l
      · rw [if_pos hc]
        exact lineate_empty_line mw st.textWrap w'
      · rw [if_neg hc]
        rfl

/-- Witness for C3 at concrete inputs: a leading of 5 against a height of 10
keeps the single line "x", and the empty input yields one empty line. -/
theorem claim_C3_witness :
    ((5 : ℚ) ≤ 10 ∧
      processLines lenQ ⟨.WORD, some 5⟩ "x" (some 10) (some 10) = .ok ["x"] ∧
      (["x"] : List String) ≠ []) ∧
    (processLines lenQ ⟨.WORD, none⟩ "y" none none = .ok ["y"] ∧
      (["y"] : List String) ≠ []) ∧
    processLines lenQ ⟨.WORD, none⟩ "" none none = .ok [""] := by
  have hok : processLines lenQ ⟨.WORD, some 5⟩ "x" (some 10) (some 10) = .ok ["x"] := by
    have hwrap : wrapLines lenQ ⟨.WORD, some 5⟩ "x" (some 10) = ["x"] := by decide
    rw [processLines_some_some, hwrap]
    norm_num [truncateFrom]
  have hok2 : processLines lenQ ⟨.WORD, none⟩ "y" none none = .ok ["y"] := by decide
  exact ⟨⟨by norm_num, hok,
      claim_C3_nonempty.2.1 lenQ .WORD 5 "x" 10 10 (by norm_num) ["x"] hok⟩,
    ⟨hok2, claim_C3_nonempty.1 lenQ ⟨.WORD, none⟩ "y" none ["y"] hok2⟩,
    claim_C3_nonempty.2.2 lenQ ⟨.WORD, none⟩ none⟩

theorem tabExpandData_no_newline (l : List Char) (h : '\n' ∉ l) :
    '\n' ∉ tabExpandData l := by
  intro hm
  simp only [tabExpandData, List.mem_flatMap] at hm
  obtain ⟨c, hc, hn⟩ := hm
  by_cases ht : c = '\t'
  · rw [if_pos ht] at hn
    simp at hn
  · rw [if_neg ht] at hn
    simp only [List.mem_singleton] at hn
    exact h (hn ▸ hc)

theorem splitOnBreaks_no_newline (s : String) (h : '\n' ∉ s.data) :
    splitOnBreaks s = [tabExpand s] := by
  unfold splitOnBreaks
  by_cases hs : s = ""
  · rw [if_pos hs, hs]
    rfl
  · rw [if_neg hs, splitLB_no_newline _ (tabExpandData_no_newline s.data h)]
    rfl

/-- C7 as amended: for a string without line breaks whose measured width
(after tab expansion) is strictly below the width constraint, line processing
returns exactly one line equal to the tab-expanded input itself — the line is
not trimmed (see the counterexample to the original claim). -/
theorem claim_C7_single_line (mw : String → ℚ) (st : TextStates) (s : String)
    (w : ℚ) (hnb : '\n' ∉ s.data) (hw : mw (tabExpand s) < w) :
    processLines mw st s (some w) none = .ok [tabExpand s] := by
  rw [processLines_none_height]
  suffices hwl : wrapLines mw st s (some w) = [tabExpand s] by rw [hwl]
  rw [wrapLines_some, splitOnBreaks_no_newline s hnb, if_neg]
  rintro (h1 | ⟨l, hl, hlt⟩)
  · simp at h1
  · simp only [List.mem_singleton] at hl
    subst hl
    exact absurd hlt (not_lt.mpr (le_of_lt hw))

/-- Counterexample for C7: the input " a" has no line breaks and fits in
width 10, yet the single produced line is " a" itself, not the trimmed "a"
that the claim asserts. -/
theorem claim_C7_counterexample :
    processLines lenQ ⟨.WORD, none⟩ " a" (some 10) none = .ok [" a"] ∧
    jsTrim " a" = "a" ∧ (" a" : String) ≠ "a" := by
  refine ⟨by decide, by decide, by decide⟩

/-- Witness for C7 at concrete inputs: " a" has no line break, measures 2
under the unit-width metric, and processing at width 10 returns it whole. -/
theorem claim_C7_witness :
    ('\n' ∉ (" a" : String).data) ∧ lenQ (tabExpand " a") < 10 ∧
    processLines lenQ ⟨.WORD, none⟩ " a" (some 10) none = .ok [tabExpand " a"] :=
  ⟨by decide, by decide,
    claim_C7_single_line lenQ ⟨.WORD, none⟩ " a" 10 (by decide) (by decide)⟩

theorem str_empty_append (s : String) : "" ++ s = s :=
  String.ext (by rw [str_data_append]; rfl)

theorem lineateStep_commit (mw : String → ℚ) (sp : String) (maxW : ℚ)
    (acc : List String) (run w : String) (hrun : run ≠ "")
    (hw : maxW < mw (run ++ w ++ sp)) :
    lineateStep mw sp maxW (acc, run) w = (acc ++ [jsTrim run], w ++ sp) := by
  simp only [lineateStep]
  rw [if_pos ⟨(str_length_pos_iff run).mpr hrun, hw⟩]

theorem lineateStep_accept (mw : String → ℚ) (sp : String) (maxW : ℚ)
    (acc : List String) (run w : String)
    (h : run = "" ∨ mw (run ++ w ++ sp) ≤ maxW) :
    lineateStep mw sp maxW (acc, run) w = (acc, run ++ w ++ sp) := by
  simp only [lineateStep]
  rw [if_neg]
  intro hcon
  cases h with
  | inl he =>
    rw [he] at hcon
    exact absurd hcon.1 (by decide)
  | inr hle => exact absurd hcon.2 (not_lt.mpr hle)

theorem foldl_lineate_eq_greedy (mw : String → ℚ) (delim : String) (maxW : ℚ) :
    ∀ (toks : List String) (acc : List String) (run : String),
      (toks.foldl (lineateStep mw delim maxW) (acc, run)).1
          ++ [jsTrim (toks.foldl (lineateStep mw delim maxW) (acc, run)).2]
        = acc ++ greedyWrapLine mw delim maxW run toks := by
  intro toks
  induction toks with
  | nil =>
    intro acc run
    simp [greedyWrapLine]
  | cons t ts ih =>
    intro acc run
    simp only [List.foldl_cons, greedyWrapLine]
    by_cases hc : 0 < run.length ∧ maxW < mw (run ++ t ++ delim)
    · have hg : run ≠ "" ∧ maxW < mw (run ++ t ++ delim) :=
        ⟨(str_length_pos_iff run).mp hc.1, hc.2⟩
      rw [lineateStep_commit mw delim maxW acc run t hg.1 hg.2, if_pos hg,
        ih (acc ++ [jsTrim run]) (t ++ delim)]
      simp
    · have hg : ¬(run ≠ "" ∧ maxW < mw (run ++ t ++ delim)) := by
        intro hcon
        exact hc ⟨(str_length_pos_iff run).mpr hcon.1, hcon.2⟩
      have hacc : run = "" ∨ mw (run ++ t ++ delim) ≤ maxW := by
        by_cases hrun : run = ""
        · exact Or.inl hrun
        · refine Or.inr (not_lt.mp ?_)
          intro hlt
          exact hg ⟨hrun, hlt⟩
      rw [lineateStep_accept mw delim maxW acc run t hacc, if_neg hg,
        ih acc (run ++ t ++ delim)]

/-- C1: the wrapping function is exactly greedy accumulation as the
specification words it (commit the trimmed running line when a non-empty
running line would overflow, flush each source line's final running line
trimmed), and on the scenario input "ab cd ef" in WORD mode with a width
that fits the candidate "ab cd " but not "ab cd ef " the result is
["ab cd", "ef"]. -/
theorem claim_C1_wrapping_greedy :
    (∀ (mw : String → ℚ) (wrap : WrapMode) (lines : List String) (maxW : ℚ),
      lineate mw wrap lines maxW = greedyWrap mw wrap lines maxW) ∧
    (∀ (mw : String → ℚ) (W : ℚ),
      mw "ab " ≤ W → mw "ab cd " ≤ W → W < mw "ab cd ef " →
      lineate mw .WORD ["ab cd ef"] W = ["ab cd", "ef"]) := by
  constructor
  · intro mw wrap lines maxW
    simp only [lineate, greedyWrap]
    congr 1
    apply List.map_congr_left
    intro src _
    have hfold := foldl_lineate_eq_greedy mw (splitterOf wrap) maxW
      (jsSplit src (splitterOf wrap)) [] ""
    simpa [lineateLine] using hfold
  · intro mw W h1 h2 h3
    have e1 : ("" ++ "ab" ++ " " : String) = "ab " := by decide
    have e2 : ("ab " ++ "cd" ++ " " : String) = "ab cd " := by decide
    have e3 : ("ab cd " ++ "ef" ++ " " : String) = "ab cd ef " := by decide
    have e4 : ("ef" ++ " " : String) = "ef " := by decide
    have t1 : jsTrim "ab cd " = "ab cd" := by decide
    have t2 : jsTrim "ef " = "ef" := by decide
    have hjs : jsSplit "ab cd ef" " " = ["ab", "cd", "ef"] := by decide
    have hsp : splitterOf .WORD = " " := rfl
    simp only [lineate, List.map_cons, List.map_nil, List.flatten_cons,
      List.flatten_nil, List.append_nil, lineateLine, hsp, hjs,
      List.foldl_cons, List.foldl_nil]
    rw [lineateStep_accept mw " " W [] "" "ab" (Or.inl rfl), e1,
      lineateStep_accept mw " " W [] "ab " "cd" (Or.inr (by rw [e2]; exact h2)),
      e2,
      lineateStep_commit mw " " W [] "ab cd " "ef" (by decide)
        (by rw [e3]; exact h3),
      e4, t1, t2]
    simp

/-- Witness for C1 at concrete inputs: under the unit-width metric with
width 6, the candidates "ab " and "ab cd " fit but "ab cd ef " does not, and
wrapping "ab cd ef" yields ["ab cd", "ef"]. -/
theorem claim_C1_witness :
    (lenQ "ab " ≤ 6 ∧ lenQ "ab cd " ≤ 6 ∧ (6 : ℚ) < lenQ "ab cd ef ") ∧
    lineate lenQ .WORD ["ab cd ef"] 6 = ["ab cd", "ef"] :=
  ⟨⟨by decide, by decide, by decide⟩,
    claim_C1_wrapping_greedy.2 lenQ 6 (by decide) (by decide) (by decide)⟩

theorem jsTrim_decomp (s : String) : ∃ a c : String, s = a ++ jsTrim s ++ c := by
  refine ⟨⟨s.data.takeWhile Char.isWhitespace⟩,
    ⟨((s.data.dropWhile Char.isWhitespace).reverse.takeWhile Char.isWhitespace).reverse⟩,
    ?_⟩
  apply String.ext
  rw [str_data_append, str_data_append]
  have key : s.data.dropWhile Char.isWhitespace
      = (jsTrim s).data
        ++ ((s.data.dropWhile Char.isWhitespace).reverse.takeWhile
              Char.isWhitespace).reverse := by
    have h1 : (s.data.dropWhile Char.isWhitespace).reverse
        = (s.data.dropWhile Char.isWhitespace).reverse.takeWhile Char.isWhitespace
          ++ (s.data.dropWhile Char.isWhitespace).reverse.dropWhile
              Char.isWhitespace :=
      (List.takeWhile_append_dropWhile Char.isWhitespace _).symm
    have h2 := congrArg List.reverse h1
    rw [List.reverse_reverse, List.reverse_append] at h2
    exact h2
  conv_lhs => rw [← List.takeWhile_append_dropWhile Char.isWhitespace s.data, key]
  rw [List.append_assoc]

theorem mw_jsTrim_le (mw : String → ℚ)
    (hmono : ∀ a b c : String, mw b ≤ mw (a ++ b ++ c)) (s : String) :
    mw (jsTrim s) ≤ mw s := by
  obtain ⟨a, c, hs⟩ := jsTrim_decomp s
  calc mw (jsTrim s) ≤ mw (a ++ jsTrim s ++ c) := hmono a _ c
    _ = mw s := by rw [← hs]

theorem foldl_preserve {α β : Type} (f : β → α → β) (P : β → Prop) :
    ∀ (l : List α) (b : β), P b → (∀ b' a, a ∈ l → P b' → P (f b' a)) →
      P (l.foldl f b) := by
  intro l
  induction l with
  | nil =>
    intro b hb _
    exact hb
  | cons x xs ih =>
    intro b hb hstep
    exact ih (f b x) (hstep b x (List.mem_cons_self x xs) hb)
      (fun b' a ha => hstep b' a (List.mem_cons_of_mem x ha))

theorem lineateLine_width (mw : String → ℚ) (delim : String) (maxW : ℚ)
    (hmono : ∀ a b c : String, mw b ≤ mw (a ++ b ++ c)) (src : String) :
    ∀ l ∈ lineateLine mw delim maxW src,
      mw l ≤ maxW ∨ l = "" ∨ ∃ w ∈ jsSplit src delim, l = jsTrim (w ++ delim) := by
  have hfold :
      (∀ l ∈ ((jsSplit src delim).foldl (lineateStep mw delim maxW) ([], "")).1,
        mw l ≤ maxW ∨ ∃ w ∈ jsSplit src delim, l = jsTrim (w ++ delim)) ∧
      (((jsSplit src delim).foldl (lineateStep mw delim maxW) ([], "")).2 = "" ∨
        mw ((jsSplit src delim).foldl (lineateStep mw delim maxW) ([], "")).2 ≤ maxW ∨
        ∃ w ∈ jsSplit src delim,
          ((jsSplit src delim).foldl (lineateStep mw delim maxW) ([], "")).2
            = w ++ delim) := by
    refine foldl_preserve (lineateStep mw delim maxW)
      (fun acc : List String × String =>
        (∀ l ∈ acc.1, mw l ≤ maxW ∨ ∃ w ∈ jsSplit src delim, l = jsTrim (w ++ delim)) ∧
        (acc.2 = "" ∨ mw acc.2 ≤ maxW ∨ ∃ w ∈ jsSplit src delim, acc.2 = w ++ delim))
      (jsSplit src delim) ([], "")
      ⟨fun l hl => absurd hl (List.not_mem_nil l), Or.inl rfl⟩ ?_
    rintro ⟨accL, run⟩ a ha hPb
    by_cases hrun : run = ""
    · rw [lineateStep_accept mw delim maxW accL run a (Or.inl hrun)]
      refine ⟨hPb.1, Or.inr (Or.inr ⟨a, ha, ?_⟩)⟩
      rw [hrun, str_empty_append]
    · by_cases hlt : maxW < mw (run ++ a ++ delim)
      · rw [lineateStep_commit mw delim maxW accL run a hrun hlt]
        constructor
        · intro l hl
          rcases List.mem_append.mp hl with hold | hnew
          · exact hPb.1 l hold
          · have hl2 : l = jsTrim run := List.mem_singleton.mp hnew
            subst hl2
            rcases hPb.2 with he | hle | ⟨w, hwmem, hweq⟩
            · exact absurd he hrun
            · exact Or.inl (le_trans (mw_jsTrim_le mw hmono run) hle)
            · exact Or.inr ⟨w, hwmem, by rw [show run = w ++ delim from hweq]⟩
        · exact Or.inr (Or.inr ⟨a, ha, rfl⟩)
      · rw [lineateStep_accept mw delim maxW accL run a (Or.inr (not_lt.mp hlt))]
        exact ⟨hPb.1, Or.inr (Or.inl (not_lt.mp hlt))⟩
  intro l hl
  simp only [lineateLine] at hl
  rcases List.mem_append.mp hl with hmem | hlast
  · rcases hfold.1 l hmem with h | ⟨w, hwmem, hweq⟩
    · exact Or.inl h
    · exact Or.inr (Or.inr ⟨w, hwmem, hweq⟩)
  · have hl2 := List.mem_singleton.mp hlast
    subst hl2
    rcases hfold.2 with he | hle | ⟨w, hwmem, hweq⟩
    · exact Or.inr (Or.inl (by rw [he]; rfl))
    · exact Or.inl (le_trans (mw_jsTrim_le mw hmono _) hle)
    · exact Or.inr (Or.inr ⟨w, hwmem, by rw [hweq]⟩)

/-- Counterexample for C8: under the metric that measures every string
(including the empty string) at width five — which is monotone under
appending characters — wrapping the empty source line in CHAR mode at width
3 produces the empty line, which measures 5 > 3 yet is not a single token
of its source line (CHAR splitting of an empty line yields no tokens at
all).  The claim's conclusion therefore fails under its stated assumption. -/
theorem claim_C8_counterexample :
    (∀ a b c : String, constFive b ≤ constFive (a ++ b ++ c)) ∧
    ¬ (∀ l ∈ lineate constFive .CHAR [""] 3,
        constFive l ≤ 3 ∨
          ∃ src ∈ ([""] : List String), ∃ w ∈ jsSplit src (splitterOf .CHAR),
            l = jsTrim (w ++ splitterOf .CHAR)) := by
  constructor
  · intro a b c
    exact le_refl 5
  · intro hAll
    have hmem : "" ∈ lineate constFive .CHAR [""] 3 := by decide
    rcases hAll "" hmem with hle | ⟨src, hsrc, w, hw, _⟩
    · exact absurd hle (by decide)
    · have hsrc2 : src = "" := List.mem_singleton.mp hsrc
      subst hsrc2
      have : jsSplit "" (splitterOf .CHAR) = [] := by decide
      rw [this] at hw
      exact absurd hw (List.not_mem_nil w)

/-- C8 as amended: assuming the metric is monotone under appending
characters on either side, every line that wrapping produces either measures
within the width constraint, or is the empty line flushed for a tokenless
source line, or is a single token of its source line (trimmed together with
its delimiter) — an overflowing token is placed on its own line whole and is
never split. -/
theorem claim_C8_width_bound (mw : String → ℚ) (wrap : WrapMode)
    (lines : List String) (maxW : ℚ)
    (hmono : ∀ a b c : String, mw b ≤ mw (a ++ b ++ c)) :
    ∀ l ∈ lineate mw wrap lines maxW,
      mw l ≤ maxW ∨ l = "" ∨
        ∃ src ∈ lines, ∃ w ∈ jsSplit src (splitterOf wrap),
          l = jsTrim (w ++ splitterOf wrap) := by
  intro l hl
  simp only [lineate, List.mem_flatten, List.mem_map] at hl
  obtain ⟨piece, ⟨src, hsrc, hpiece⟩, hlp⟩ := hl
  subst hpiece
  rcases lineateLine_width mw (splitterOf wrap) maxW hmono src l hlp with
    h | he | ⟨w, hw, he⟩
  · exact Or.inl h
  · exact Or.inr (Or.inl he)
  · exact Or.inr (Or.inr ⟨src, hsrc, w, hw, he⟩)

theorem lenQ_concat_mono (a b c : String) : lenQ b ≤ lenQ (a ++ b ++ c) := by
  simp only [lenQ]
  have hlen : (a ++ b ++ c).length = a.length + b.length + c.length := by
    rw [String.length_append, String.length_append]
  rw [hlen]
  have hn : b.length ≤ a.length + b.length + c.length := by omega
  exact_mod_cast hn

/-- Witness for C8 at concrete inputs: wrapping "abc d" at width 2 under the
unit-width metric produces the overflowing single token "abc" on its own
line, which satisfies the exception clause of the theorem. -/
theorem claim_C8_witness :
    (∀ a b c : String, lenQ b ≤ lenQ (a ++ b ++ c)) ∧
    (lenQ "abc" ≤ 2 ∨ ("abc" : String) = "" ∨
      ∃ src ∈ ["abc d"], ∃ w ∈ jsSplit src (splitterOf .WORD),
        "abc" = jsTrim (w ++ splitterOf .WORD)) :=
  ⟨lenQ_concat_mono,
    claim_C8_width_bound lenQ .WORD ["abc d"] 2 lenQ_concat_mono "abc" (by decide)⟩

end P5Text
